import Mathlib

/-!
Verification of the SQLMate specification against the repository sources.

Frontend components (table customization panel, paginated result table,
API response handler, embedded-auth message handler) are embedded directly
from the TypeScript sources.  The backend query core (schema graph, join
resolver, constraint formatter, query/update builders) is not present in
the repository snapshot, so it is modelled from the specification text and
the claims are settled against that model.
-/

namespace Panel

/-- Sort direction of a column row in the customization panel
(the `orderBy` field of `Column` in the panel source, values
"NONE" | "ASC" | "DESC"). -/
inductive SortDir where
  | noSort
  | asc
  | desc
deriving DecidableEq, Repr

/-- Constraint sub-record of a panel column: an operator string (one of
"", "=", "<", ">", "<=", ">=", "!=", "PREFIX", "SUFFIX", "SUBSTRING")
and a raw value string. -/
structure Constr where
  operator : String
  value : String
deriving DecidableEq, Repr

/-- A column row of the customization panel, mirroring the exported
`Column` interface of the panel component. -/
structure Column where
  name : String
  type : String
  aliasText : String
  constr : Constr
  groupBy : Bool
  aggregate : String
  orderBy : SortDir
  id : String
deriving DecidableEq, Repr

/-- First character of a valid SQL identifier: letter or underscore
(the `[a-zA-Z_]` part of `VALID_ALIAS_PATTERN`). -/
def isIdentStart (c : Char) : Bool := c.isAlpha || c = '_'

/-- Subsequent character of a valid SQL identifier: letter, digit or
underscore (the `[a-zA-Z0-9_]` part of `VALID_ALIAS_PATTERN`). -/
def isIdentChar (c : Char) : Bool := c.isAlphanum || c = '_'

/-- Test of the regular expression `^[a-zA-Z_][a-zA-Z0-9_]*$`
(`VALID_ALIAS_PATTERN` in the panel source). -/
def aliasMatches (s : String) : Bool :=
  match s.toList with
  | [] => false
  | c :: cs => isIdentStart c && cs.all isIdentChar

/-- Validity check performed by `handleAliASChange`:
`alias === "" || VALID_ALIAS_PATTERN.test(alias)`. -/
def validAlias (s : String) : Bool :=
  if s = "" then true else aliasMatches s

/-- A fresh column row as created by the panel for a newly added
attribute (`addSelectedAttributes` and the initial `useState` mapping):
empty alias, empty constraint, no grouping, no aggregate, no ordering. -/
def mkFreshColumn (name ty id : String) : Column :=
  { name := name, type := ty, aliasText := "", constr := { operator := "", value := "" },
    groupBy := false, aggregate := "", orderBy := SortDir.noSort, id := id }

/-- User events the customization panel handlers can process, one
constructor per `handle…` callback that edits the column list (plus
attribute addition and removal).  `addColumns` carries
(name, type, id) triples of the attributes being added. -/
inductive PanelEvent where
  | aliasChange (id a : String)
  | opChange (id op : String)
  | valChange (id v : String)
  | groupByChange (id : String) (b : Bool)
  | aggregateChange (id ag : String)
  | orderByCycle (id : String)
  | removeColumn (id : String)
  | addColumns (specs : List (String × String × String))
deriving DecidableEq, Repr

/-- Pointwise column update used by every panel handler:
`cols.map((col) => col.id === id ? f(col) : col)`. -/
def updateCol (id : String) (f : Column → Column) (cols : List Column) : List Column :=
  cols.map (fun c => if c.id = id then f c else c)

/-- Successor in the NONE → ASC → DESC → NONE cycle of
`handleOrderByChange`. -/
def nextSort : SortDir → SortDir
  | SortDir.noSort => SortDir.asc
  | SortDir.asc => SortDir.desc
  | SortDir.desc => SortDir.noSort

/-- One step of the customization panel state machine.  Each branch is
the body of the corresponding handler in the panel source.  The
`valChange` branch is guarded by the target column having a non-empty
operator, because the value input carries
`disabled={!column.constraint.operator}` and so cannot fire a change
event while the operator is unset.  The `aliasChange` branch updates the
stored alias only when the new text is empty or matches
`VALID_ALIAS_PATTERN`, exactly as `handleAliASChange` does. -/
def panelStep (cols : List Column) : PanelEvent → List Column
  | PanelEvent.aliasChange id a =>
      if validAlias a then updateCol id (fun c => { c with aliasText := a }) cols else cols
  | PanelEvent.opChange id op =>
      updateCol id (fun c => { c with constr := { c.constr with operator := op } }) cols
  | PanelEvent.valChange id v =>
      cols.map (fun c =>
        if c.id = id then
          if c.constr.operator = "" then c
          else { c with constr := { c.constr with value := v } }
        else c)
  | PanelEvent.groupByChange id b => updateCol id (fun c => { c with groupBy := b }) cols
  | PanelEvent.aggregateChange id ag => updateCol id (fun c => { c with aggregate := ag }) cols
  | PanelEvent.orderByCycle id => updateCol id (fun c => { c with orderBy := nextSort c.orderBy }) cols
  | PanelEvent.removeColumn id => cols.filter (fun c => c.id ≠ id)
  | PanelEvent.addColumns specs =>
      cols ++ specs.map (fun s => mkFreshColumn s.1 s.2.1 s.2.2)

/-- Running a sequence of panel events from a column-list state. -/
def runPanel (cols : List Column) (evs : List PanelEvent) : List Column :=
  evs.foldl panelStep cols

/-- Alias validity of every stored column. -/
def AliasInv (cols : List Column) : Prop :=
  ∀ c ∈ cols, validAlias c.aliasText = true

theorem updateCol_alias_inv (id : String) (f : Column → Column) (cols : List Column)
    (hf : ∀ c, (f c).aliasText = c.aliasText) (h : AliasInv cols) :
    AliasInv (updateCol id f cols) := by
  intro c hc
  rcases List.mem_map.mp hc with ⟨c₀, hc₀, rfl⟩
  by_cases hid : c₀.id = id
  · rw [if_pos hid, hf]
    exact h c₀ hc₀
  · rw [if_neg hid]
    exact h c₀ hc₀

theorem panelStep_alias_inv (cols : List Column) (e : PanelEvent)
    (h : AliasInv cols) : AliasInv (panelStep cols e) := by
  cases e with
  | aliasChange id a =>
      by_cases hv : validAlias a = true
      · simp only [panelStep, if_pos hv]
        intro c hc
        rcases List.mem_map.mp hc with ⟨c₀, hc₀, rfl⟩
        by_cases hid : c₀.id = id
        · simpa [hid] using hv
        · simp only [if_neg hid]
          exact h c₀ hc₀
      · simp only [panelStep, if_neg hv]
        exact h
  | opChange id op => exact updateCol_alias_inv id _ cols (fun c => rfl) h
  | valChange id v =>
      intro c hc
      simp only [panelStep] at hc
      rcases List.mem_map.mp hc with ⟨c₀, hc₀, rfl⟩
      by_cases hid : c₀.id = id
      · by_cases hop : c₀.constr.operator = ""
        · simp only [if_pos hid, if_pos hop]
          exact h c₀ hc₀
        · simp only [if_pos hid, if_neg hop]
          exact h c₀ hc₀
      · simp only [if_neg hid]
        exact h c₀ hc₀
  | groupByChange id b => exact updateCol_alias_inv id _ cols (fun c => rfl) h
  | aggregateChange id ag => exact updateCol_alias_inv id _ cols (fun c => rfl) h
  | orderByCycle id => exact updateCol_alias_inv id _ cols (fun c => rfl) h
  | removeColumn id =>
      intro c hc
      simp only [panelStep] at hc
      exact h c (List.mem_of_mem_filter hc)
  | addColumns specs =>
      intro c hc
      simp only [panelStep] at hc
      rcases List.mem_append.mp hc with hc | hc
      · exact h c hc
      · rcases List.mem_map.mp hc with ⟨s, _, rfl⟩
        rfl

theorem runPanel_alias_inv (cols : List Column) (evs : List PanelEvent)
    (h : AliasInv cols) : AliasInv (runPanel cols evs) := by
  induction evs generalizing cols with
  | nil => exact h
  | cons e evs ih => exact ih (panelStep cols e) (panelStep_alias_inv cols e h)

/-- Unset operator and empty value on every stored column. -/
def ConstrInv (cols : List Column) : Prop :=
  ∀ c ∈ cols, c.constr.operator = "" ∧ c.constr.value = ""

theorem map_id_of_mem {α : Type} {l : List α} {f : α → α}
    (h : ∀ a ∈ l, f a = a) : l.map f = l := by
  induction l with
  | nil => rfl
  | cons x xs ih =>
      simp only [List.map_cons, h x (List.mem_cons_self x xs)]
      rw [ih (fun a ha => h a (List.mem_cons_of_mem x ha))]

theorem updateCol_constr_inv (id : String) (f : Column → Column) (cols : List Column)
    (hf : ∀ c, (f c).constr = c.constr) (h : ConstrInv cols) :
    ConstrInv (updateCol id f cols) := by
  intro c hc
  rcases List.mem_map.mp hc with ⟨c₀, hc₀, rfl⟩
  by_cases hid : c₀.id = id
  · rw [if_pos hid, hf]
    exact h c₀ hc₀
  · rw [if_neg hid]
    exact h c₀ hc₀

theorem panelStep_constr_inv (cols : List Column) (e : PanelEvent)
    (h : ConstrInv cols)
    (he : ∀ i op, e = PanelEvent.opChange i op → op = "") :
    ConstrInv (panelStep cols e) := by
  cases e with
  | aliasChange id a =>
      by_cases hv : validAlias a = true
      · simp only [panelStep, if_pos hv]
        exact updateCol_constr_inv id _ cols (fun c => rfl) h
      · simp only [panelStep, if_neg hv]
        exact h
  | opChange id op =>
      have hop : op = "" := he id op rfl
      subst hop
      intro c hc
      simp only [panelStep] at hc
      rcases List.mem_map.mp hc with ⟨c₀, hc₀, rfl⟩
      by_cases hid : c₀.id = id
      · rw [if_pos hid]
        exact ⟨rfl, (h c₀ hc₀).2⟩
      · rw [if_neg hid]
        exact h c₀ hc₀
  | valChange id v =>
      intro c hc
      simp only [panelStep] at hc
      rcases List.mem_map.mp hc with ⟨c₀, hc₀, rfl⟩
      by_cases hid : c₀.id = id
      · rw [if_pos hid, if_pos (h c₀ hc₀).1]
        exact h c₀ hc₀
      · rw [if_neg hid]
        exact h c₀ hc₀
  | groupByChange id b => exact updateCol_constr_inv id _ cols (fun c => rfl) h
  | aggregateChange id ag => exact updateCol_constr_inv id _ cols (fun c => rfl) h
  | orderByCycle id => exact updateCol_constr_inv id _ cols (fun c => rfl) h
  | removeColumn id =>
      intro c hc
      simp only [panelStep] at hc
      exact h c (List.mem_of_mem_filter hc)
  | addColumns specs =>
      intro c hc
      simp only [panelStep] at hc
      rcases List.mem_append.mp hc with hc | hc
      · exact h c hc
      · rcases List.mem_map.mp hc with ⟨s, _, rfl⟩
        exact ⟨rfl, rfl⟩

theorem runPanel_constr_inv (cols : List Column) (evs : List PanelEvent)
    (h : ConstrInv cols)
    (he : ∀ e ∈ evs, ∀ i op, e = PanelEvent.opChange i op → op = "") :
    ConstrInv (runPanel cols evs) := by
  induction evs generalizing cols with
  | nil => exact h
  | cons e evs ih =>
      exact ih (panelStep cols e)
        (panelStep_constr_inv cols e h (he e (List.mem_cons_self e evs)))
        (fun e' he' => he e' (List.mem_cons_of_mem e he'))

end Panel

/-- C6: for every sequence of edits in the table customization panel, each
column's stored alias is at all times either the empty string or a string
matching `^[a-zA-Z_][a-zA-Z0-9_]*$`, and an alias edit that violates the
pattern leaves the stored column list unchanged. -/
theorem c6_alias_identifier_invariant
    (cols : List Panel.Column) (evs : List Panel.PanelEvent)
    (h : Panel.AliasInv cols) :
    Panel.AliasInv (Panel.runPanel cols evs)
    ∧ (∀ id a, Panel.validAlias a = false →
        Panel.panelStep cols (Panel.PanelEvent.aliasChange id a) = cols) := by
  refine ⟨Panel.runPanel_alias_inv cols evs h, ?_⟩
  intro id a ha
  simp [Panel.panelStep, ha]

/-- Witness for C6: a concrete run with one invalid and one valid alias edit;
the invalid edit `"9bad"` leaves the stored column list unchanged. -/
theorem c6_alias_identifier_invariant_witness :
    Panel.AliasInv (Panel.runPanel [Panel.mkFreshColumn "age" "integer" "t-age-1"]
      [Panel.PanelEvent.aliasChange "t-age-1" "9bad",
       Panel.PanelEvent.aliasChange "t-age-1" "years_"])
    ∧ Panel.panelStep [Panel.mkFreshColumn "age" "integer" "t-age-1"]
        (Panel.PanelEvent.aliasChange "t-age-1" "9bad")
        = [Panel.mkFreshColumn "age" "integer" "t-age-1"] :=
  ⟨(c6_alias_identifier_invariant [Panel.mkFreshColumn "age" "integer" "t-age-1"]
      [Panel.PanelEvent.aliasChange "t-age-1" "9bad",
       Panel.PanelEvent.aliasChange "t-age-1" "years_"]
      (by intro c hc; rw [List.mem_singleton] at hc; subst hc; decide)).1,
   (c6_alias_identifier_invariant [Panel.mkFreshColumn "age" "integer" "t-age-1"]
      [Panel.PanelEvent.aliasChange "t-age-1" "9bad",
       Panel.PanelEvent.aliasChange "t-age-1" "years_"]
      (by intro c hc; rw [List.mem_singleton] at hc; subst hc; decide)).2
     "t-age-1" "9bad" (by decide)⟩

/-- C7 counterexample: starting from a fresh column, setting the operator to
`=`, typing the value `5`, then setting the operator back to the empty
option leaves the panel in a state whose operator is unset while the stored
constraint value is still `"5"` — the stored value is not empty although the
operator is unset. -/
theorem c7_counterexample :
    (Panel.runPanel [Panel.mkFreshColumn "age" "integer" "t-age-1"]
      [Panel.PanelEvent.opChange "t-age-1" "=",
       Panel.PanelEvent.valChange "t-age-1" "5",
       Panel.PanelEvent.opChange "t-age-1" ""]).map
        (fun c => (c.constr.operator, c.constr.value)) = [("", "5")]
    ∧ ("5" : String) ≠ "" := by
  exact ⟨by decide, by decide⟩

/-- C7 (amended): a constraint value cannot be edited while the column's
operator is unset — the value input is disabled, so a value-change event on a
state whose columns all have unset operators is a no-op — and in any run
whose events never set a non-empty operator every stored constraint value
stays empty.  (Clearing a previously set operator, however, retains the
previously entered value, so an unset operator alone does not imply an empty
stored value.) -/
theorem c7_value_editable_only_with_operator
    (cols : List Panel.Column) (evs : List Panel.PanelEvent)
    (hinv : Panel.ConstrInv cols)
    (hevs : ∀ e ∈ evs, ∀ i op, e = Panel.PanelEvent.opChange i op → op = "") :
    (∀ id v, Panel.panelStep cols (Panel.PanelEvent.valChange id v) = cols)
    ∧ Panel.ConstrInv (Panel.runPanel cols evs) := by
  refine ⟨?_, Panel.runPanel_constr_inv cols evs hinv hevs⟩
  intro id v
  simp only [Panel.panelStep]
  apply Panel.map_id_of_mem
  intro c hc
  by_cases hid : c.id = id
  · rw [if_pos hid, if_pos (hinv c hc).1]
  · rw [if_neg hid]

/-- Witness for C7 (amended) at a concrete column list and event sequence:
a value edit while the operator is unset is a no-op, and a run never setting
an operator keeps the constraint empty. -/
theorem c7_value_editable_only_with_operator_witness :
    Panel.panelStep [Panel.mkFreshColumn "age" "integer" "t-age-1"]
        (Panel.PanelEvent.valChange "t-age-1" "44")
        = [Panel.mkFreshColumn "age" "integer" "t-age-1"]
    ∧ Panel.ConstrInv (Panel.runPanel [Panel.mkFreshColumn "age" "integer" "t-age-1"]
        [Panel.PanelEvent.aliasChange "t-age-1" "a1",
         Panel.PanelEvent.opChange "t-age-1" "",
         Panel.PanelEvent.groupByChange "t-age-1" true]) :=
  (fun h => ⟨h.1 "t-age-1" "44", h.2⟩) <| c7_value_editable_only_with_operator
    [Panel.mkFreshColumn "age" "integer" "t-age-1"]
    [Panel.PanelEvent.aliasChange "t-age-1" "a1",
     Panel.PanelEvent.opChange "t-age-1" "",
     Panel.PanelEvent.groupByChange "t-age-1" true]
    (by intro c hc; rw [List.mem_singleton] at hc; subst hc; exact ⟨rfl, rfl⟩)
    (by
      intro e he i op heq
      subst heq
      rcases List.mem_cons.mp he with h | he
      · exact Panel.PanelEvent.noConfusion h
      rcases List.mem_cons.mp he with h | he
      · injection h with h1 h2
      rcases List.mem_singleton.mp he with h
      exact Panel.PanelEvent.noConfusion h)

namespace Pager

/-- Total page count of the paginated result table:
`Math.ceil(rows.length / itemsPerPage)`. -/
def totalPages (rowCount ipp : Nat) : Nat := (rowCount + ipp - 1) / ipp

/-- Page navigation actions exposed by the result table controls. -/
inductive PageAction where
  | goTo (p : Nat)
  | prev
  | next
deriving DecidableEq, Repr

/-- One navigation step: `goToPage` clamps its argument into
`[1, totalPages]`, `goToPreviousPage` floors at 1, `goToNextPage` caps at
`totalPages`, exactly as in the result-table component. -/
def applyAction (tp page : Nat) : PageAction → Nat
  | PageAction.goTo p => max 1 (min p tp)
  | PageAction.prev => max 1 (page - 1)
  | PageAction.next => min tp (page + 1)

/-- Folding a sequence of navigation actions from a starting page. -/
def runActions (tp page : Nat) (acts : List PageAction) : Nat :=
  acts.foldl (applyAction tp) page

/-- Rows rendered on `page`: `rows.slice((page-1)*ipp, page*ipp)`,
written as drop-then-take. -/
def currentRows {α : Type} (rows : List α) (ipp page : Nat) : List α :=
  (rows.drop ((page - 1) * ipp)).take ipp

theorem totalPages_pos (rowCount ipp : Nat) (hr : 0 < rowCount) (hi : 0 < ipp) :
    1 ≤ totalPages rowCount ipp := by
  rw [totalPages, Nat.le_div_iff_mul_le hi]
  omega

theorem length_le_totalPages_mul (rowCount ipp : Nat) (hi : 0 < ipp) :
    rowCount ≤ totalPages rowCount ipp * ipp := by
  rcases Nat.eq_zero_or_pos rowCount with h | h
  · omega
  · rw [totalPages]
    have hdm := Nat.div_add_mod (rowCount + ipp - 1) ipp
    have hlt : (rowCount + ipp - 1) % ipp < ipp := Nat.mod_lt _ hi
    have hcomm : (rowCount + ipp - 1) / ipp * ipp = ipp * ((rowCount + ipp - 1) / ipp) :=
      Nat.mul_comm _ _
    omega

theorem applyAction_bounds (tp page : Nat) (a : PageAction) (htp : 1 ≤ tp)
    (h1 : 1 ≤ page) (h2 : page ≤ tp) :
    1 ≤ applyAction tp page a ∧ applyAction tp page a ≤ tp := by
  cases a with
  | goTo p =>
      exact ⟨le_max_left 1 _, max_le htp (min_le_right p tp)⟩
  | prev =>
      exact ⟨le_max_left 1 _, max_le htp (le_trans (Nat.sub_le page 1) h2)⟩
  | next =>
      exact ⟨le_min htp (by omega), min_le_left tp _⟩

theorem runActions_bounds (tp page : Nat) (acts : List PageAction) (htp : 1 ≤ tp)
    (h1 : 1 ≤ page) (h2 : page ≤ tp) :
    1 ≤ runActions tp page acts ∧ runActions tp page acts ≤ tp := by
  induction acts generalizing page with
  | nil => exact ⟨h1, h2⟩
  | cons a acts ih =>
      have hb := applyAction_bounds tp page a htp h1 h2
      exact ih (applyAction tp page a) hb.1 hb.2

theorem chunks_take {α : Type} (rows : List α) (ipp : Nat) (n : Nat) :
    (List.range n).flatMap (fun k => currentRows rows ipp (k + 1)) = rows.take (n * ipp) := by
  induction n with
  | zero => simp
  | succ n ih =>
      rw [List.range_succ, List.flatMap_append, ih]
      simp only [currentRows, List.flatMap_cons, List.flatMap_nil, List.append_nil,
        Nat.add_sub_cancel]
      rw [Nat.succ_mul, List.take_add]

theorem chunks_partition {α : Type} (rows : List α) (ipp : Nat) (hi : 0 < ipp) :
    (List.range (totalPages rows.length ipp)).flatMap
      (fun k => currentRows rows ipp (k + 1)) = rows := by
  rw [chunks_take]
  exact List.take_of_length_le (length_le_totalPages_mul rows.length ipp hi)

end Pager

/-- C9: in the paginated result table, for every non-empty row list and every
sequence of page-navigation actions starting from page 1, the current page
stays between 1 and `ceil(rows.length / itemsPerPage)` inclusive; the rows
rendered on a page are exactly `rows.slice((page-1)*ipp, page*ipp)`, of
length at most `itemsPerPage`; and the consecutive pages partition the row
list in order. -/
theorem c9_pagination_invariant {α : Type} (rows : List α) (ipp : Nat)
    (acts : List Pager.PageAction) (hrows : rows ≠ []) (hipp : 0 < ipp) :
    1 ≤ Pager.runActions (Pager.totalPages rows.length ipp) 1 acts
    ∧ Pager.runActions (Pager.totalPages rows.length ipp) 1 acts
        ≤ Pager.totalPages rows.length ipp
    ∧ (∀ page, Pager.currentRows rows ipp page = (rows.drop ((page - 1) * ipp)).take ipp)
    ∧ (∀ page, (Pager.currentRows rows ipp page).length ≤ ipp)
    ∧ (List.range (Pager.totalPages rows.length ipp)).flatMap
        (fun k => Pager.currentRows rows ipp (k + 1)) = rows := by
  have hlen : 0 < rows.length := List.length_pos.mpr hrows
  have htp : 1 ≤ Pager.totalPages rows.length ipp :=
    Pager.totalPages_pos rows.length ipp hlen hipp
  have hb := Pager.runActions_bounds (Pager.totalPages rows.length ipp) 1 acts htp
    (le_refl 1) htp
  refine ⟨hb.1, hb.2, fun page => rfl, fun page => ?_, 
    Pager.chunks_partition rows ipp hipp⟩
  exact le_trans (List.length_take_le ipp _) (le_refl ipp)

/-- Witness for C9 at a concrete row list, page size and action sequence. -/
theorem c9_pagination_invariant_witness :
    1 ≤ Pager.runActions (Pager.totalPages ([10, 20, 30] : List Nat).length 2) 1
        [Pager.PageAction.next, Pager.PageAction.goTo 7, Pager.PageAction.prev]
    ∧ Pager.runActions (Pager.totalPages ([10, 20, 30] : List Nat).length 2) 1
        [Pager.PageAction.next, Pager.PageAction.goTo 7, Pager.PageAction.prev]
        ≤ Pager.totalPages ([10, 20, 30] : List Nat).length 2
    ∧ Pager.currentRows ([10, 20, 30] : List Nat) 2 2
        = (([10, 20, 30] : List Nat).drop ((2 - 1) * 2)).take 2
    ∧ (Pager.currentRows ([10, 20, 30] : List Nat) 2 2).length ≤ 2
    ∧ (List.range (Pager.totalPages ([10, 20, 30] : List Nat).length 2)).flatMap
        (fun k => Pager.currentRows ([10, 20, 30] : List Nat) 2 (k + 1))
        = [10, 20, 30] :=
  (fun h => ⟨h.1, h.2.1, h.2.2.1 2, h.2.2.2.1 2, h.2.2.2.2⟩) <|
    c9_pagination_invariant [10, 20, 30] 2
      [Pager.PageAction.next, Pager.PageAction.goTo 7, Pager.PageAction.prev]
      (by decide) (by decide)

namespace Embed

/-- Origins trusted by the embedded-auth hook (`ALLOWED_ORIGINS`). -/
def ALLOWED_ORIGINS : List String :=
  ["https://courtvision.dev", "https://www.courtvision.dev",
   "http://localhost:3001", "http://localhost:3000"]

/-- Membership test on a list of strings, written out so that its
reduction behaviour is transparent in proofs. -/
def memB (x : String) : List String → Bool
  | [] => false
  | y :: ys => (y = x) || memB x ys

/-- Theme payload of a `theme-sync` message (`ThemeSyncPayload`):
a mode string and CSS variable assignments (field `vars` models `variables`). -/
structure ThemePayload where
  mode : String
  vars : List (String × String)
deriving DecidableEq, Repr

/-- Data field of a window message as inspected by `handleMessage`:
a `type` tag, an optional token string and an optional theme payload. -/
structure MsgData where
  type : String
  token : Option String
  payload : Option ThemePayload
deriving DecidableEq, Repr

/-- A window message: origin plus data (`data` is optional because
`event.data` may be absent or null, which the handler's optional
chaining treats as a no-op). -/
structure Msg where
  origin : String
  data : Option MsgData
deriving DecidableEq, Repr

/-- Observable state the handler can change: the token stored in
`sessionStorage` under "clerk-token", the `dark` class on the document
element, the CSS custom properties set on it, and the body background. -/
structure AuthState where
  storedToken : Option String
  darkClass : Bool
  cssVars : List (String × String)
  background : Option String
deriving DecidableEq, Repr

/-- Upsert of one CSS custom property (`root.style.setProperty`). -/
def setProp (m : List (String × String)) (k v : String) : List (String × String) :=
  if m.any (fun kv => kv.1 = k) then
    m.map (fun kv => if kv.1 = k then (k, v) else kv)
  else m ++ [(k, v)]

/-- Lookup of a theme variable (`payload.variables[key]`), `none` when
the key is absent (JavaScript `undefined`). -/
def lookupVar (vars : List (String × String)) (k : String) : Option String :=
  (vars.find? (fun kv => kv.1 = k)).map (fun kv => kv.2)

/-- The `applyTheme` function: toggles the `dark` class by mode, sets
every variable wrapped in `hsl(...)`, and overrides the body background
with the themed `--background` value (`undefined` when absent, as in the
JavaScript template string). -/
def applyTheme (st : AuthState) (p : ThemePayload) : AuthState :=
  { st with
    darkClass := p.mode = "dark"
    cssVars := p.vars.foldl (fun m kv => setProp m kv.1 ("hsl(" ++ kv.2 ++ ")")) st.cssVars
    background := some ("hsl(" ++ ((lookupVar p.vars "--background").getD "undefined") ++ ")") }

/-- The `handleMessage` listener of the embedded-auth hook: drops any
message whose origin is not in `ALLOWED_ORIGINS`; stores a truthy
`clerk-token` token into session storage; applies a `theme-sync`
payload. -/
def handleMessage (st : AuthState) (m : Msg) : AuthState :=
  if memB m.origin ALLOWED_ORIGINS then
    match m.data with
    | none => st
    | some d =>
        let st1 := if d.type = "clerk-token" then
            match d.token with
            | some t => if t = "" then st else { st with storedToken := some t }
            | none => st
          else st
        if d.type = "theme-sync" then
          match d.payload with
          | some p => applyTheme st1 p
          | none => st1
        else st1
  else st

/-- Processing a sequence of window messages. -/
def runMessages (st : AuthState) (ms : List Msg) : AuthState :=
  ms.foldl handleMessage st

theorem handleMessage_untrusted (st : AuthState) (m : Msg)
    (h : memB m.origin ALLOWED_ORIGINS = false) : handleMessage st m = st := by
  simp [handleMessage, h]

theorem runMessages_filter (st : AuthState) (ms : List Msg) :
    runMessages st ms = runMessages st (ms.filter (fun m => memB m.origin ALLOWED_ORIGINS)) := by
  induction ms generalizing st with
  | nil => rfl
  | cons m ms ih =>
      by_cases h : memB m.origin ALLOWED_ORIGINS = true
      · simp only [runMessages, List.foldl_cons, List.filter_cons, h, if_pos]
        exact ih (handleMessage st m)
      · have h' : memB m.origin ALLOWED_ORIGINS = false := by
          revert h
          cases memB m.origin ALLOWED_ORIGINS <;> simp
        simp only [runMessages, List.foldl_cons, List.filter_cons, h',
          handleMessage_untrusted st m h']
        exact ih st

end Embed

/-- C10: the embedded-auth message handler performs no state change for a
window message whose origin is not in `ALLOWED_ORIGINS` (no token is written
and no theme is applied), and consequently two runs whose message sequences
agree on the messages from allowed origins — differing only in messages from
non-allowed origins — end in the same stored-token and theme state. -/
theorem c10_untrusted_origins_no_effect (st : Embed.AuthState) (m : Embed.Msg)
    (ms₁ ms₂ : List Embed.Msg)
    (hm : Embed.memB m.origin Embed.ALLOWED_ORIGINS = false)
    (hsame : ms₁.filter (fun m => Embed.memB m.origin Embed.ALLOWED_ORIGINS)
      = ms₂.filter (fun m => Embed.memB m.origin Embed.ALLOWED_ORIGINS)) :
    Embed.handleMessage st m = st
    ∧ Embed.runMessages st ms₁ = Embed.runMessages st ms₂ := by
  refine ⟨Embed.handleMessage_untrusted st m hm, ?_⟩
  rw [Embed.runMessages_filter st ms₁, Embed.runMessages_filter st ms₂, hsame]

/-- Witness for C10: a run receiving a forged token message from an evil
origin ends in the same state as a run receiving only the legitimate
messages. -/
theorem c10_untrusted_origins_no_effect_witness :
    Embed.handleMessage
      { storedToken := none, darkClass := false, cssVars := [], background := none }
      { origin := "https://evil.example",
        data := some { type := "clerk-token", token := some "forged", payload := none } }
      = { storedToken := none, darkClass := false, cssVars := [], background := none }
    ∧ Embed.runMessages
        { storedToken := none, darkClass := false, cssVars := [], background := none }
        [{ origin := "https://evil.example",
           data := some { type := "clerk-token", token := some "forged", payload := none } },
         { origin := "https://courtvision.dev",
           data := some { type := "clerk-token", token := some "tok1", payload := none } }]
      = Embed.runMessages
          { storedToken := none, darkClass := false, cssVars := [], background := none }
          [{ origin := "https://courtvision.dev",
             data := some { type := "clerk-token", token := some "tok1", payload := none } }] :=
  c10_untrusted_origins_no_effect
    { storedToken := none, darkClass := false, cssVars := [], background := none }
    { origin := "https://evil.example",
      data := some { type := "clerk-token", token := some "forged", payload := none } }
    [{ origin := "https://evil.example",
       data := some { type := "clerk-token", token := some "forged", payload := none } },
     { origin := "https://courtvision.dev",
       data := some { type := "clerk-token", token := some "tok1", payload := none } }]
    [{ origin := "https://courtvision.dev",
       data := some { type := "clerk-token", token := some "tok1", payload := none } }]
    (by decide) (by decide)

namespace Api

/-- A parsed JSON value, as produced by `response.json()`. -/
inductive Json where
  | null
  | bool (b : Bool)
  | num (n : Int)
  | str (s : String)
  | arr (elems : List Json)
  | obj (fields : List (String × Json))

/-- JavaScript truthiness of a JSON value: `null`, `false`, `0` and the
empty string are falsy; every array and object is truthy. -/
def truthy : Json → Bool
  | Json.null => false
  | Json.bool b => b
  | Json.num n => n ≠ 0
  | Json.str s => s ≠ ""
  | Json.arr _ => true
  | Json.obj _ => true

/-- Property access `v.key`: the first field of that name when `v` is an
object, `none` (JavaScript `undefined`) otherwise. -/
def getField : Json → String → Option Json
  | Json.obj fields, k => (fields.find? (fun f => f.1 = k)).map (fun f => f.2)
  | _, _ => none

mutual

/-- JavaScript `String(v)` coercion as applied by the `Error`
constructor to its message argument. -/
def jsToString : Json → String
  | Json.null => "null"
  | Json.bool b => if b then "true" else "false"
  | Json.num n => toString n
  | Json.str s => s
  | Json.arr elems => String.intercalate "," (jsToStringList elems)
  | Json.obj _ => "[object Object]"

/-- Stringification of each element of a JSON array. -/
def jsToStringList : List Json → List String
  | [] => []
  | j :: js => jsToString j :: jsToStringList js

end

/-- An HTTP response as seen by `handleResponse`: the `ok` flag and the
JSON parse of the body (`none` when the body does not parse, which the
error path turns into `null` via `.catch(() => null)` and the ok path
propagates as a parse failure). -/
structure Response where
  ok : Bool
  body : Option Json

/-- Failure modes of `handleResponse`: a thrown `Error` with a message,
or the SyntaxError propagated by `response.json()` on the ok path. -/
inductive ApiError where
  | message (s : String)
  | parseFailure

/-- Error message chosen by the non-ok branch of `handleResponse`:
`errorData.details.message` when `errorData`, `errorData.details` and
`errorData.details.message` are all truthy, `"Unknown error"`
otherwise. -/
def errMessage (body : Option Json) : String :=
  match body with
  | none => "Unknown error"
  | some j =>
      if truthy j = false then "Unknown error"
      else match getField j "details" with
        | none => "Unknown error"
        | some d =>
            if truthy d = false then "Unknown error"
            else match getField d "message" with
              | none => "Unknown error"
              | some m =>
                  if truthy m = false then "Unknown error" else jsToString m

/-- The `handleResponse` method of `BaseApiClient`: on an ok response it
returns the parsed body (`response.json()`, whose parse failure
propagates); on a non-ok response it throws an `Error` carrying
`errMessage` of the parsed body. -/
def handleResponse (r : Response) : Except ApiError Json :=
  if r.ok then
    match r.body with
    | some j => Except.ok j
    | none => Except.error ApiError.parseFailure
  else Except.error (ApiError.message (errMessage r.body))

end Api

/-- C8 counterexample: an ok response whose body does not parse as JSON
(for example an empty body) makes `handleResponse` propagate the parse
failure instead of returning a parsed result, so "returns the parsed result
exactly when the response is ok" fails: this response is ok, yet no result
is returned. -/
theorem c8_counterexample :
    (Api.Response.mk true none).ok = true
    ∧ Api.handleResponse (Api.Response.mk true none)
        = Except.error Api.ApiError.parseFailure :=
  ⟨rfl, rfl⟩

/-- C8 (amended): `handleResponse` returns the parsed result exactly when
the response is ok and its body parses as JSON — an ok response with an
unparseable body propagates the parse failure.  A non-ok response throws an
error whose message is the body's `details.message` whenever the body parses
to JSON in which `errorData`, `errorData.details` and
`errorData.details.message` are all truthy (in particular the message is a
non-empty string), and the fixed message "Unknown error" otherwise — both
directions of the when/otherwise mapping are stated as implications, so the
`details.message` outcome is forced whenever the truthy chain holds; the
caller never receives both a result and an error. -/
theorem c8_handleResponse_dichotomy (r : Api.Response) :
    (r.ok = true →
      ((∃ j, r.body = some j ∧ Api.handleResponse r = Except.ok j)
        ∨ (r.body = none
            ∧ Api.handleResponse r = Except.error Api.ApiError.parseFailure)))
    ∧ (r.ok = false →
        ∀ j d m, r.body = some j →
          Api.truthy j = true →
          Api.getField j "details" = some d →
          Api.truthy d = true →
          Api.getField d "message" = some m →
          Api.truthy m = true →
          Api.handleResponse r
            = Except.error (Api.ApiError.message (Api.jsToString m)))
    ∧ (r.ok = false →
        ¬(∃ j d m, r.body = some j
            ∧ Api.truthy j = true
            ∧ Api.getField j "details" = some d
            ∧ Api.truthy d = true
            ∧ Api.getField d "message" = some m
            ∧ Api.truthy m = true) →
        Api.handleResponse r = Except.error (Api.ApiError.message "Unknown error"))
    ∧ (∀ j e, ¬(Api.handleResponse r = Except.ok j
        ∧ Api.handleResponse r = Except.error e)) := by
  refine ⟨?_, ?_, ?_, ?_⟩
  · intro hok
    cases hb : r.body with
    | some j => exact Or.inl ⟨j, rfl, by simp [Api.handleResponse, hok, hb]⟩
    | none => exact Or.inr ⟨rfl, by simp [Api.handleResponse, hok, hb]⟩
  · intro hok j d m hb htj hd htd hm htm
    have hmsg : Api.errMessage r.body = Api.jsToString m := by
      rw [hb]
      simp [Api.errMessage, htj, hd, htd, hm, htm]
    simp [Api.handleResponse, hok, hmsg]
  · intro hok hnot
    have hmsg : Api.errMessage r.body = "Unknown error" := by
      cases hb : r.body with
      | none => rfl
      | some j =>
          cases htj : Api.truthy j with
          | false => simp [Api.errMessage, htj]
          | true =>
              cases hd : Api.getField j "details" with
              | none => simp [Api.errMessage, htj, hd]
              | some d =>
                  cases htd : Api.truthy d with
                  | false => simp [Api.errMessage, htj, hd, htd]
                  | true =>
                      cases hm : Api.getField d "message" with
                      | none => simp [Api.errMessage, htj, hd, htd, hm]
                      | some m =>
                          cases htm : Api.truthy m with
                          | false => simp [Api.errMessage, htj, hd, htd, hm, htm]
                          | true =>
                              exact absurd ⟨j, d, m, hb, htj, hd, htd, hm, htm⟩ hnot
    simp [Api.handleResponse, hok, hmsg]
  · intro j e ⟨h1, h2⟩
    rw [h1] at h2
    exact Except.noConfusion h2

/-- Witness for C8 (amended): a non-ok response carrying
`{"details": {"message": "boom"}}` throws an error whose message is
forced to be `"boom"` by the truthy-chain direction of the theorem, and a
non-ok response with an unparseable body throws "Unknown error" by the
otherwise direction. -/
theorem c8_handleResponse_dichotomy_witness :
    Api.handleResponse (Api.Response.mk false
        (some (Api.Json.obj [("details", Api.Json.obj [("message", Api.Json.str "boom")])])))
      = Except.error (Api.ApiError.message "boom")
    ∧ Api.handleResponse (Api.Response.mk false none)
      = Except.error (Api.ApiError.message "Unknown error") := by
  constructor
  · exact (c8_handleResponse_dichotomy (Api.Response.mk false
      (some (Api.Json.obj [("details", Api.Json.obj [("message", Api.Json.str "boom")])])))).2.1
      rfl
      (Api.Json.obj [("details", Api.Json.obj [("message", Api.Json.str "boom")])])
      (Api.Json.obj [("message", Api.Json.str "boom")])
      (Api.Json.str "boom")
      rfl rfl rfl rfl rfl rfl
  · exact (c8_handleResponse_dichotomy (Api.Response.mk false none)).2.2.1 rfl
      (by rintro ⟨j, d, m, hb, _⟩; exact Option.noConfusion hb)

namespace Core

/-- Modelled from the spec: the closed set of declared column data types
(spec section 3, Data Model); the backend source carrying this type is
absent from the repository snapshot. -/
inductive ColumnType where
  | integer
  | float
  | text
  | boolean
  | timestamp
deriving DecidableEq, Repr

/-- Modelled from the spec: the closed set of constraint operators of the
ConstraintFormatter (spec section 4.3); `pfx`, `sfx` and `substr` stand for
the PREFIX, SUFFIX and SUBSTRING operators. -/
inductive Op where
  | eq
  | ne
  | gt
  | lt
  | ge
  | le
  | pfx
  | sfx
  | substr
deriving DecidableEq, Repr

/-- Whether an operator is one of the six comparison operators (as opposed
to the three LIKE-based text operators). -/
def Op.isComparison : Op → Bool
  | Op.pfx => false
  | Op.sfx => false
  | Op.substr => false
  | _ => true

/-- SQL spelling of an operator; the three text operators all render as
`LIKE`. -/
def opSql : Op → String
  | Op.eq => "="
  | Op.ne => "!="
  | Op.gt => ">"
  | Op.lt => "<"
  | Op.ge => ">="
  | Op.le => "<="
  | _ => "LIKE"

/-- Modelled from the spec: a bound parameter value — numeric columns bind
numeric literals, everything else binds text (spec section 4.3). -/
inductive SqlValue where
  | num (n : Int)
  | text (s : String)
deriving DecidableEq, Repr

/-- Numeric value of a list of decimal digit characters. -/
def digitsToNat (ds : List Char) : Nat :=
  ds.foldl (fun a c => a * 10 + (c.toNat - 48)) 0

/-- Modelled from the spec: parsing of a raw constraint value as a numeric
literal (an optional minus sign followed by decimal digits); `none` marks a
non-numeric value, which is an `InvalidConstraint` for a numeric column. -/
def parseIntValue (s : String) : Option Int :=
  match s.toList with
  | [] => none
  | '-' :: ds =>
      if ds.isEmpty then none
      else if ds.all Char.isDigit then some (-(digitsToNat ds : Int)) else none
  | ds =>
      if ds.all Char.isDigit then some ((digitsToNat ds : Int)) else none

/-- Whether a declared type is numeric (integer or floating-point). -/
def isNumericType : ColumnType → Bool
  | ColumnType.integer => true
  | ColumnType.float => true
  | _ => false

/-- A formatted constraint: a parameterized predicate fragment and the one
bound value that goes with its placeholder. -/
structure FormattedConstraint where
  fragment : String
  param : SqlValue
deriving DecidableEq, Repr

/-- Modelled from the spec: the error kinds of the query core
(spec section 7). -/
inductive SqlError where
  | UnreachableTable (table : String)
  | InvalidConstraint (column : String) (op : String)
  | InvalidAggregation
  | UnscopedUpdate
  | EmptyRequest
deriving DecidableEq, Repr

/-- Qualified column reference `table.column`. -/
def colRef (table col : String) : String := table ++ "." ++ col

/-- Predicate fragment for a constraint: qualified column, operator
spelling, and a `?` placeholder — the raw value never appears in it. -/
def predFragment (table col : String) (op : Op) : String :=
  colRef table col ++ " " ++ opSql op ++ " ?"

/-- Wildcard placement of the three text operators: `%` after the value
for PREFIX, before it for SUFFIX, on both sides for SUBSTRING. -/
def likePattern (op : Op) (raw : String) : String :=
  match op with
  | Op.pfx => raw ++ "%"
  | Op.sfx => "%" ++ raw
  | Op.substr => "%" ++ raw ++ "%"
  | _ => raw

/-- Modelled from the spec: the ConstraintFormatter (spec section 4.3).
Comparison operators bind the raw value typed by the column's declared
type — numeric columns require a numeric literal (else
`InvalidConstraint`), all other columns bind the raw text; the three text
operators bind the `%`-wildcarded value and compare with `LIKE`.  The
value reaches the statement only through the bound parameter, never
through the fragment text. -/
def formatConstraint (table col : String) (ty : ColumnType) (op : Op) (raw : String) :
    Except SqlError FormattedConstraint :=
  if op.isComparison then
    if isNumericType ty then
      match parseIntValue raw with
      | some n => Except.ok ⟨predFragment table col op, SqlValue.num n⟩
      | none => Except.error (SqlError.InvalidConstraint col (opSql op))
    else Except.ok ⟨predFragment table col op, SqlValue.text raw⟩
  else Except.ok ⟨predFragment table col op, SqlValue.text (likePattern op raw)⟩

/-- A built statement: SQL text plus the ordered bound parameters. -/
structure BuiltStatement where
  sql : String
  params : List SqlValue
deriving DecidableEq, Repr

/-- Modelled from the spec: the UpdateBuilder (spec section 4.5).  An
update with zero constraints is rejected with `UnscopedUpdate` before any
statement text is assembled; otherwise it emits
`UPDATE table SET col = ?, ... WHERE <conjunction>` with the assignment
values followed by the constraint parameters. -/
def buildUpdate (table : String) (assigns : List (String × SqlValue))
    (constraints : List FormattedConstraint) : Except SqlError BuiltStatement :=
  if constraints.isEmpty then Except.error SqlError.UnscopedUpdate
  else Except.ok
    { sql := "UPDATE " ++ table ++ " SET "
        ++ String.intercalate ", " (assigns.map (fun a => a.1 ++ " = ?"))
        ++ " WHERE "
        ++ String.intercalate " AND " (constraints.map (fun c => c.fragment)),
      params := assigns.map (fun a => a.2) ++ constraints.map (fun c => c.param) }

end Core

/-- C2: for every constraint with a comparison operator, the formatted
fragment is the fixed `table.column OP ?` placeholder text — independent of
the raw value, which is never interpolated — and the bound parameter is
numeric (the parsed raw value) for a numeric column and the raw text for
every other column. -/
theorem c2_comparison_binds_typed_parameter
    (table col : String) (ty : Core.ColumnType) (op : Core.Op) (raw : String)
    (out : Core.FormattedConstraint)
    (hop : op.isComparison = true)
    (hok : Core.formatConstraint table col ty op raw = Except.ok out) :
    out.fragment = Core.predFragment table col op
    ∧ (Core.isNumericType ty = true →
        ∃ n, Core.parseIntValue raw = some n ∧ out.param = Core.SqlValue.num n)
    ∧ (Core.isNumericType ty = false → out.param = Core.SqlValue.text raw) := by
  rw [Core.formatConstraint, if_pos hop] at hok
  cases hty : Core.isNumericType ty with
  | true =>
      rw [if_pos hty] at hok
      cases hp : Core.parseIntValue raw with
      | some n =>
          rw [hp] at hok
          injection hok with hok
          subst hok
          exact ⟨rfl, fun _ => ⟨n, rfl, rfl⟩, fun h => Bool.noConfusion h⟩
      | none =>
          rw [hp] at hok
          exact Except.noConfusion hok
  | false =>
      rw [if_neg (by simp [hty])] at hok
      injection hok with hok
      subst hok
      exact ⟨rfl, fun h => by simp [hty] at h, fun _ => rfl⟩

/-- Witness for C2: a numeric column filtered with `=` and raw value `"5"`
binds the numeric value 5 — and not the text `"5"`. -/
theorem c2_comparison_binds_typed_parameter_witness :
    Core.formatConstraint "users" "age" Core.ColumnType.integer Core.Op.eq "5"
      = Except.ok
          (Core.FormattedConstraint.mk (Core.predFragment "users" "age" Core.Op.eq)
            (Core.SqlValue.num 5))
    ∧ (∃ n, Core.parseIntValue "5" = some n
        ∧ (Core.FormattedConstraint.mk (Core.predFragment "users" "age" Core.Op.eq)
            (Core.SqlValue.num 5)).param = Core.SqlValue.num n)
    ∧ Core.SqlValue.num 5 ≠ Core.SqlValue.text "5"
    ∧ Core.predFragment "users" "age" Core.Op.eq = "users.age = ?" := by
  refine ⟨rfl, ?_, by decide, by decide⟩
  exact (c2_comparison_binds_typed_parameter "users" "age" Core.ColumnType.integer
    Core.Op.eq "5" _ rfl rfl).2.1 rfl

/-- C3: an UPDATE with an empty constraint set fails with `UnscopedUpdate`
and never produces a statement. -/
theorem c3_unscoped_update_rejected (table : String)
    (assigns : List (String × Core.SqlValue)) :
    Core.buildUpdate table assigns [] = Except.error Core.SqlError.UnscopedUpdate
    ∧ ∀ stmt, Core.buildUpdate table assigns [] ≠ Except.ok stmt := by
  refine ⟨rfl, ?_⟩
  intro stmt h
  exact Except.noConfusion h

/-- C5: for every constraint using a text operator, the fragment is the
fixed `table.column LIKE ?` comparison and the bound value is the raw value
wildcarded with `%` after it for PREFIX, before it for SUFFIX, and on both
sides for SUBSTRING. -/
theorem c5_like_operators_wildcard
    (table col : String) (ty : Core.ColumnType) (op : Core.Op) (raw : String)
    (out : Core.FormattedConstraint)
    (hop : op.isComparison = false)
    (hok : Core.formatConstraint table col ty op raw = Except.ok out) :
    out.fragment = Core.predFragment table col op
    ∧ Core.opSql op = "LIKE"
    ∧ (op = Core.Op.pfx → out.param = Core.SqlValue.text (raw ++ "%"))
    ∧ (op = Core.Op.sfx → out.param = Core.SqlValue.text ("%" ++ raw))
    ∧ (op = Core.Op.substr → out.param = Core.SqlValue.text ("%" ++ raw ++ "%")) := by
  rw [Core.formatConstraint, if_neg (by simp [hop])] at hok
  injection hok with hok
  subst hok
  cases op <;> simp_all [Core.Op.isComparison, Core.opSql, Core.likePattern]

/-- Witness for C5: PREFIX with raw value `"abc"` binds the pattern
`"abc%"`, which is neither `"%abc%"` nor `"%abc"`. -/
theorem c5_like_operators_wildcard_witness :
    (Core.FormattedConstraint.mk
        (Core.predFragment "users" "name" Core.Op.pfx)
        (Core.SqlValue.text "abc%")).param = Core.SqlValue.text ("abc" ++ "%")
    ∧ Core.opSql Core.Op.pfx = "LIKE"
    ∧ Core.formatConstraint "users" "name" Core.ColumnType.text Core.Op.pfx "abc"
        = Except.ok (Core.FormattedConstraint.mk
            (Core.predFragment "users" "name" Core.Op.pfx)
            (Core.SqlValue.text "abc%"))
    ∧ ("abc%" : String) ≠ "%abc%"
    ∧ ("abc%" : String) ≠ "%abc" := by
  have h := c5_like_operators_wildcard "users" "name" Core.ColumnType.text
    Core.Op.pfx "abc"
    (Core.FormattedConstraint.mk (Core.predFragment "users" "name" Core.Op.pfx)
      (Core.SqlValue.text "abc%")) rfl rfl
  exact ⟨h.2.2.1 rfl, h.2.1, rfl, by decide, by decide⟩

namespace Core

/-- String membership test used by the resolver, written out for
transparent reduction. -/
def memB (x : String) : List String → Bool
  | [] => false
  | y :: ys => if y = x then true else memB x ys

theorem memB_iff (x : String) (l : List String) : memB x l = true ↔ x ∈ l := by
  induction l with
  | nil => simp [memB]
  | cons y ys ih =>
      by_cases h : y = x
      · simp [memB, h]
      · simp [memB, h, ih]
        intro he
        exact absurd he.symm h

/-- Modelled from the spec: an undirected foreign-key edge between
(tableA, colA) and (tableB, colB) (spec section 3). -/
structure FKEdge where
  tableA : String
  colA : String
  tableB : String
  colB : String
deriving DecidableEq, Repr

/-- Modelled from the spec: the immutable schema snapshot — tables plus
foreign-key edges; the adjacency iteration order is the fixed edge-list
order, giving the deterministic tie-breaking the spec requires
(spec sections 3 and 4.1). -/
structure SchemaGraph where
  tables : List String
  edges : List FKEdge
deriving DecidableEq, Repr

/-- Adjacency of a table: each incident edge together with its other
endpoint, in edge-list order. -/
def nbrs (g : SchemaGraph) (t : String) : List (String × FKEdge) :=
  g.edges.filterMap (fun e =>
    if e.tableA = t then some (e.tableB, e)
    else if e.tableB = t then some (e.tableA, e) else none)

/-- Two tables joined by some foreign-key edge of the graph. -/
def EdgeBetween (g : SchemaGraph) (u v : String) : Prop :=
  ∃ e ∈ g.edges, (e.tableA = u ∧ e.tableB = v) ∨ (e.tableA = v ∧ e.tableB = u)

/-- Reachability along foreign-key edges. -/
inductive Reach (g : SchemaGraph) : String → String → Prop where
  | refl (t : String) : Reach g t t
  | step {s u v : String} : Reach g s u → EdgeBetween g u v → Reach g s v

/-- Reachability from some member of a table set. -/
def ReachFromSet (g : SchemaGraph) (S : List String) (x : String) : Prop :=
  ∃ s ∈ S, Reach g s x

theorem edgeBetween_symm {g : SchemaGraph} {u v : String}
    (h : EdgeBetween g u v) : EdgeBetween g v u := by
  rcases h with ⟨e, he, hc | hc⟩
  · exact ⟨e, he, Or.inr hc⟩
  · exact ⟨e, he, Or.inl hc⟩

theorem Reach.single {g : SchemaGraph} {u v : String}
    (h : EdgeBetween g u v) : Reach g u v :=
  Reach.step (Reach.refl u) h

theorem Reach.trans {g : SchemaGraph} {a b c : String}
    (h1 : Reach g a b) (h2 : Reach g b c) : Reach g a c := by
  induction h2 with
  | refl => exact h1
  | step _ e ih => exact Reach.step ih e

theorem reach_symm {g : SchemaGraph} {a b : String}
    (h : Reach g a b) : Reach g b a := by
  induction h with
  | refl => exact Reach.refl _
  | step _ e ih => exact Reach.trans (Reach.single (edgeBetween_symm e)) ih

theorem reach_in_closed {g : SchemaGraph} {S : List String}
    (hcl : ∀ v ∈ S, ∀ n, EdgeBetween g v n → n ∈ S) {s x : String}
    (hs : s ∈ S) (hr : Reach g s x) : x ∈ S := by
  induction hr with
  | refl => exact hs
  | step _ e ih => exact hcl _ ih _ e

theorem nbrs_spec {g : SchemaGraph} {t : String} {p : String × FKEdge}
    (hp : p ∈ nbrs g t) :
    p.2 ∈ g.edges
    ∧ ((p.2.tableA = t ∧ p.2.tableB = p.1) ∨ (p.2.tableB = t ∧ p.2.tableA = p.1)) := by
  rcases List.mem_filterMap.mp hp with ⟨e, he, heq⟩
  by_cases h1 : e.tableA = t
  · rw [if_pos h1] at heq
    injection heq with heq
    subst heq
    exact ⟨he, Or.inl ⟨h1, rfl⟩⟩
  · rw [if_neg h1] at heq
    by_cases h2 : e.tableB = t
    · rw [if_pos h2] at heq
      injection heq with heq
      subst heq
      exact ⟨he, Or.inr ⟨h2, rfl⟩⟩
    · rw [if_neg h2] at heq
      exact Option.noConfusion heq

theorem nbrs_edgeBetween {g : SchemaGraph} {t : String} {p : String × FKEdge}
    (hp : p ∈ nbrs g t) : EdgeBetween g t p.1 := by
  rcases nbrs_spec hp with ⟨he, hc | hc⟩
  · exact ⟨p.2, he, Or.inl ⟨hc.1, hc.2⟩⟩
  · exact ⟨p.2, he, Or.inr ⟨hc.2, hc.1⟩⟩

theorem edgeBetween_nbrs {g : SchemaGraph} {t n : String}
    (h : EdgeBetween g t n) : n ∈ (nbrs g t).map Prod.fst := by
  rcases h with ⟨e, he, ⟨hA, hB⟩ | ⟨hA, hB⟩⟩
  · refine List.mem_map.mpr ⟨(n, e), ?_, rfl⟩
    refine List.mem_filterMap.mpr ⟨e, he, ?_⟩
    rw [if_pos hA, hB]
  · by_cases hAt : e.tableA = t
    · refine List.mem_map.mpr ⟨(n, e), ?_, rfl⟩
      refine List.mem_filterMap.mpr ⟨e, he, ?_⟩
      rw [if_pos hAt, hB]
      rw [hA] at hAt
      rw [hAt]
    · refine List.mem_map.mpr ⟨(n, e), ?_, rfl⟩
      refine List.mem_filterMap.mpr ⟨e, he, ?_⟩
      rw [if_neg hAt, if_pos hB, hA]

end Core

namespace Core

theorem memB_eq_false (x : String) (l : List String) : memB x l = false ↔ x ∉ l := by
  rw [← memB_iff]
  cases memB x l <;> simp

/-- Modelled from the spec: enqueue the not-yet-seen neighbours of the
dequeued table, in adjacency (edge discovery) order.  Each new table is
recorded as seen and appended to the FIFO queue together with its path,
extended by the discovering edge. -/
def enqueueAll (path : List FKEdge) :
    List (String × FKEdge) → List String → List (String × List FKEdge) →
    List String × List (String × List FKEdge)
  | [], vis, q => (vis, q)
  | ne :: ns, vis, q =>
      if memB ne.1 vis then enqueueAll path ns vis q
      else enqueueAll path ns (ne.1 :: vis) (q ++ [(ne.1, ne.2 :: path)])

theorem enq_vis_mono (path : List FKEdge) (ns : List (String × FKEdge)) :
    ∀ vis q x, x ∈ vis → x ∈ (enqueueAll path ns vis q).1 := by
  induction ns with
  | nil => intro vis q x hx; exact hx
  | cons ne ns ih =>
      intro vis q x hx
      by_cases hm : memB ne.1 vis
      · simpa [enqueueAll, hm] using ih vis q x hx
      · simpa [enqueueAll, hm] using ih (ne.1 :: vis) _ x (List.mem_cons_of_mem _ hx)

theorem enq_vis_nodup (path : List FKEdge) (ns : List (String × FKEdge)) :
    ∀ vis q, vis.Nodup → (enqueueAll path ns vis q).1.Nodup := by
  induction ns with
  | nil => intro vis q h; exact h
  | cons ne ns ih =>
      intro vis q h
      by_cases hm : memB ne.1 vis
      · simpa [enqueueAll, hm] using ih vis q h
      · have hne : ne.1 ∉ vis := by
          rw [← memB_eq_false]
          exact Bool.eq_false_iff.mpr hm
        simpa [enqueueAll, hm] using ih (ne.1 :: vis) _ (List.nodup_cons.mpr ⟨hne, h⟩)

theorem enq_vis_from (path : List FKEdge) (ns : List (String × FKEdge)) :
    ∀ vis q x, x ∈ (enqueueAll path ns vis q).1 →
      x ∈ vis ∨ x ∈ ns.map Prod.fst := by
  induction ns with
  | nil => intro vis q x hx; exact Or.inl hx
  | cons ne ns ih =>
      intro vis q x hx
      by_cases hm : memB ne.1 vis
      · rw [enqueueAll, if_pos hm] at hx
        rcases ih vis q x hx with h | h
        · exact Or.inl h
        · exact Or.inr (List.mem_cons_of_mem _ h)
      · rw [enqueueAll, if_neg hm] at hx
        rcases ih _ _ x hx with h | h
        · rcases List.mem_cons.mp h with h | h
          · exact Or.inr (h ▸ List.mem_cons_self _ _)
          · exact Or.inl h
        · exact Or.inr (List.mem_cons_of_mem _ h)

theorem enq_queue_keep (path : List FKEdge) (ns : List (String × FKEdge)) :
    ∀ vis q p, p ∈ q → p ∈ (enqueueAll path ns vis q).2 := by
  induction ns with
  | nil => intro vis q p hp; exact hp
  | cons ne ns ih =>
      intro vis q p hp
      by_cases hm : memB ne.1 vis
      · simpa [enqueueAll, hm] using ih vis q p hp
      · simpa [enqueueAll, hm] using ih _ _ p (List.mem_append_left _ hp)

theorem enq_queue_from (path : List FKEdge) (ns : List (String × FKEdge)) :
    ∀ vis q p, p ∈ (enqueueAll path ns vis q).2 →
      p ∈ q ∨ ∃ ne ∈ ns, p = (ne.1, ne.2 :: path) := by
  induction ns with
  | nil => intro vis q p hp; exact Or.inl hp
  | cons ne ns ih =>
      intro vis q p hp
      by_cases hm : memB ne.1 vis
      · rw [enqueueAll, if_pos hm] at hp
        rcases ih vis q p hp with h | ⟨ne', hne', h⟩
        · exact Or.inl h
        · exact Or.inr ⟨ne', List.mem_cons_of_mem _ hne', h⟩
      · rw [enqueueAll, if_neg hm] at hp
        rcases ih _ _ p hp with h | ⟨ne', hne', h⟩
        · rcases List.mem_append.mp h with h | h
          · exact Or.inl h
          · rcases List.mem_singleton.mp h with h
            exact Or.inr ⟨ne, List.mem_cons_self _ _, h⟩
        · exact Or.inr ⟨ne', List.mem_cons_of_mem _ hne', h⟩

theorem enq_ns_vis (path : List FKEdge) (ns : List (String × FKEdge)) :
    ∀ vis q ne, ne ∈ ns → ne.1 ∈ (enqueueAll path ns vis q).1 := by
  induction ns with
  | nil => intro vis q ne h; exact absurd h (List.not_mem_nil ne)
  | cons ne' ns ih =>
      intro vis q ne h
      rcases List.mem_cons.mp h with h | h
      · subst h
        by_cases hm : memB ne.1 vis
        · rw [enqueueAll, if_pos hm]
          exact enq_vis_mono path ns vis q ne.1 ((memB_iff _ _).mp hm)
        · rw [enqueueAll, if_neg hm]
          exact enq_vis_mono path ns _ _ ne.1 (List.mem_cons_self _ _)
      · by_cases hm : memB ne'.1 vis
        · rw [enqueueAll, if_pos hm]
          exact ih vis q ne h
        · rw [enqueueAll, if_neg hm]
          exact ih _ _ ne h

theorem enq_len (path : List FKEdge) (ns : List (String × FKEdge)) :
    ∀ vis q, (enqueueAll path ns vis q).1.length + q.length
      = vis.length + (enqueueAll path ns vis q).2.length := by
  induction ns with
  | nil => intro vis q; rfl
  | cons ne ns ih =>
      intro vis q
      by_cases hm : memB ne.1 vis
      · rw [enqueueAll, if_pos hm]
        exact ih vis q
      · rw [enqueueAll, if_neg hm]
        have h := ih (ne.1 :: vis) (q ++ [(ne.1, ne.2 :: path)])
        simp only [List.length_cons, List.length_append, List.length_nil] at h
        omega

theorem enq_vis_queue (path : List FKEdge) (ns : List (String × FKEdge)) :
    ∀ vis q x, x ∈ (enqueueAll path ns vis q).1 → x ∉ vis →
      x ∈ (enqueueAll path ns vis q).2.map Prod.fst := by
  induction ns with
  | nil => intro vis q x hx hnx; exact absurd hx hnx
  | cons ne ns ih =>
      intro vis q x hx hnx
      by_cases hm : memB ne.1 vis
      · rw [enqueueAll, if_pos hm] at hx ⊢
        exact ih vis q x hx hnx
      · rw [enqueueAll, if_neg hm] at hx ⊢
        by_cases hxe : x = ne.1
        · subst hxe
          refine List.mem_map.mpr ⟨(ne.1, ne.2 :: path), ?_, rfl⟩
          exact enq_queue_keep path ns _ _ _
            (List.mem_append_right _ (List.mem_singleton_self _))
        · have hnx' : x ∉ ne.1 :: vis := by
            intro hmem
            rcases List.mem_cons.mp hmem with h | h
            · exact hxe h
            · exact hnx h
          exact ih _ _ x hx hnx'

end Core

namespace Core

/-- Modelled from the spec: breadth-first search for a shortest path from
a set of already-reached tables to a target table (spec section 4.2).
The queue holds tables paired with the reversed edge path that discovered
them; ties in path length are broken by the FIFO discovery order, which is
fixed by the edge-list iteration order. -/
def bfsAux (g : SchemaGraph) (target : String) :
    Nat → List String → List (String × List FKEdge) → Option (List FKEdge)
  | 0, _, _ => none
  | _ + 1, _, [] => none
  | fuel + 1, visited, (t, path) :: rest =>
      if t = target then some path.reverse
      else
        let r := enqueueAll path (nbrs g t) visited rest
        bfsAux g target fuel r.1 r.2

/-- Breadth-first search from the (deduplicated) start set, with fuel
sufficient to exhaust the graph. -/
def bfs (g : SchemaGraph) (start : List String) (target : String) :
    Option (List FKEdge) :=
  bfsAux g target (3 * start.dedup.length + 4 * g.edges.length + 1)
    start.dedup (start.dedup.map (fun s => (s, [])))

/-- Queue entries reach their table from `S` and carry genuine edges whose
endpoints are reachable from `S`. -/
def QueueSound (g : SchemaGraph) (S : List String)
    (queue : List (String × List FKEdge)) : Prop :=
  ∀ p ∈ queue, ReachFromSet g S p.1
    ∧ ∀ e ∈ p.2, e ∈ g.edges ∧ ReachFromSet g S e.tableA ∧ ReachFromSet g S e.tableB

theorem bfsAux_some_reach (g : SchemaGraph) (target : String) (S : List String) :
    ∀ (fuel : Nat) (visited : List String) (queue : List (String × List FKEdge))
      (path : List FKEdge),
      QueueSound g S queue →
      bfsAux g target fuel visited queue = some path →
      ReachFromSet g S target
      ∧ ∀ e ∈ path, e ∈ g.edges
          ∧ ReachFromSet g S e.tableA ∧ ReachFromSet g S e.tableB := by
  intro fuel
  induction fuel with
  | zero => intro visited queue path _ h; exact Option.noConfusion h
  | succ fuel ih =>
      intro visited queue path hq h
      cases queue with
      | nil => exact Option.noConfusion h
      | cons hd rest =>
          obtain ⟨t, tpath⟩ := hd
          by_cases ht : t = target
          · rw [bfsAux, if_pos ht] at h
            injection h with h
            subst h
            have hhd := hq (t, tpath) (List.mem_cons_self _ _)
            refine ⟨ht ▸ hhd.1, ?_⟩
            intro e he
            exact hhd.2 e (List.mem_reverse.mp he)
          · rw [bfsAux, if_neg ht] at h
            refine ih _ _ path ?_ h
            intro p hp
            rcases enq_queue_from tpath (nbrs g t) visited rest p hp
              with hold | ⟨ne, hne, rfl⟩
            · exact hq p (List.mem_cons_of_mem _ hold)
            · have hhd := hq (t, tpath) (List.mem_cons_self _ _)
              have hedge := nbrs_edgeBetween hne
              have hspec := nbrs_spec hne
              have hreach1 : ReachFromSet g S ne.1 := by
                rcases hhd.1 with ⟨s, hs, hr⟩
                exact ⟨s, hs, Reach.step hr hedge⟩
              refine ⟨hreach1, ?_⟩
              intro e he
              rcases List.mem_cons.mp he with rfl | he
              · refine ⟨hspec.1, ?_, ?_⟩
                · rcases hspec.2 with ⟨hA, _⟩ | ⟨_, hA⟩
                  · exact hA ▸ hhd.1
                  · exact hA ▸ hreach1
                · rcases hspec.2 with ⟨_, hB⟩ | ⟨hB, _⟩
                  · exact hB ▸ hreach1
                  · exact hB ▸ hhd.1
              · exact hhd.2 e he

theorem bfs_some_reach (g : SchemaGraph) (start : List String) (target : String)
    (path : List FKEdge) (h : bfs g start target = some path) :
    ReachFromSet g start target
    ∧ ∀ e ∈ path, e ∈ g.edges
        ∧ ReachFromSet g start e.tableA ∧ ReachFromSet g start e.tableB := by
  refine bfsAux_some_reach g target start _ _ _ path ?_ h
  intro p hp
  rcases List.mem_map.mp hp with ⟨s, hs, rfl⟩
  refine ⟨⟨s, List.mem_dedup.mp hs, Reach.refl s⟩, ?_⟩
  intro e he
  exact absurd he (List.not_mem_nil e)

end Core

namespace Core

theorem nodup_length_le_card (l : List String) (U : Finset String)
    (hn : l.Nodup) (hsub : ∀ x ∈ l, x ∈ U) : l.length ≤ U.card := by
  rw [← List.toFinset_card_of_nodup hn]
  exact Finset.card_le_card (fun x hx => hsub x (List.mem_toFinset.mp hx))

theorem nbrs_fst_mem (g : SchemaGraph) (t : String) (U : Finset String)
    (hU : ∀ e ∈ g.edges, e.tableA ∈ U ∧ e.tableB ∈ U) (x : String)
    (hx : x ∈ (nbrs g t).map Prod.fst) : x ∈ U := by
  rcases List.mem_map.mp hx with ⟨p, hp, rfl⟩
  rcases nbrs_spec hp with ⟨he, ⟨_, hB⟩ | ⟨_, hA⟩⟩
  · exact hB ▸ (hU p.2 he).2
  · exact hA ▸ (hU p.2 he).1

/-- When breadth-first search exhausts its queue without finding the
target, nothing reachable from the visited set is the target: the visited
set is closed under edges at that point, every enqueued table was visited,
and the fuel bound (by the cardinality measure) guarantees the queue was
genuinely exhausted rather than the fuel. -/
theorem bfsAux_none_no_reach (g : SchemaGraph) (target : String) (U : Finset String)
    (hU : ∀ e ∈ g.edges, e.tableA ∈ U ∧ e.tableB ∈ U) :
    ∀ (fuel : Nat) (visited : List String) (queue : List (String × List FKEdge)),
      visited.Nodup →
      (∀ x ∈ visited, x ∈ U) →
      (∀ p ∈ queue, p.1 ∈ visited) →
      (∀ v ∈ visited, v ∉ queue.map Prod.fst → ∀ n, EdgeBetween g v n → n ∈ visited) →
      (target ∈ visited → target ∈ queue.map Prod.fst) →
      queue.length + 2 * (U.card - visited.length) < fuel →
      bfsAux g target fuel visited queue = none →
      ∀ s ∈ visited, ∀ x, Reach g s x → x ≠ target := by
  intro fuel
  induction fuel with
  | zero =>
      intro visited queue _ _ _ _ _ hm
      exact absurd hm (Nat.not_lt_zero _)
  | succ fuel ih =>
      intro visited queue h1 h2 h3 h4 h5 hm h
      cases queue with
      | nil =>
          intro s hs x hrch hxt
          have hcl : ∀ v ∈ visited, ∀ n, EdgeBetween g v n → n ∈ visited := by
            intro v hv n he
            exact h4 v hv (by simp) n he
          have hx : x ∈ visited := reach_in_closed hcl hs hrch
          exact absurd (h5 (hxt ▸ hx)) (by simp)
      | cons hd rest =>
          obtain ⟨t, tpath⟩ := hd
          by_cases ht : t = target
          · rw [bfsAux, if_pos ht] at h
            exact Option.noConfusion h
          · rw [bfsAux, if_neg ht] at h
            have hsub : ∀ x ∈ visited,
                x ∈ (enqueueAll tpath (nbrs g t) visited rest).1 :=
              fun x hx => enq_vis_mono tpath (nbrs g t) visited rest x hx
            have h1' : (enqueueAll tpath (nbrs g t) visited rest).1.Nodup :=
              enq_vis_nodup tpath (nbrs g t) visited rest h1
            have h2' : ∀ x ∈ (enqueueAll tpath (nbrs g t) visited rest).1, x ∈ U := by
              intro x hx
              rcases enq_vis_from tpath (nbrs g t) visited rest x hx with hx | hx
              · exact h2 x hx
              · exact nbrs_fst_mem g t U hU x hx
            have h3' : ∀ p ∈ (enqueueAll tpath (nbrs g t) visited rest).2,
                p.1 ∈ (enqueueAll tpath (nbrs g t) visited rest).1 := by
              intro p hp
              rcases enq_queue_from tpath (nbrs g t) visited rest p hp
                with hp | ⟨ne, hne, rfl⟩
              · exact hsub p.1 (h3 p (List.mem_cons_of_mem _ hp))
              · exact enq_ns_vis tpath (nbrs g t) visited rest ne hne
            have h4' : ∀ v ∈ (enqueueAll tpath (nbrs g t) visited rest).1,
                v ∉ (enqueueAll tpath (nbrs g t) visited rest).2.map Prod.fst →
                ∀ n, EdgeBetween g v n →
                n ∈ (enqueueAll tpath (nbrs g t) visited rest).1 := by
              intro v hv hvq n hedge
              by_cases hvvis : v ∈ visited
              · by_cases hvt : v = t
                · subst hvt
                  have hn := edgeBetween_nbrs hedge
                  rcases List.mem_map.mp hn with ⟨p, hp, rfl⟩
                  exact enq_ns_vis tpath (nbrs g v) visited rest p hp
                · have hvrest : v ∉ rest.map Prod.fst := by
                    intro hmem
                    rcases List.mem_map.mp hmem with ⟨p, hp, rfl⟩
                    exact hvq (List.mem_map.mpr
                      ⟨p, enq_queue_keep tpath (nbrs g t) visited rest p hp, rfl⟩)
                  have hvold : v ∉ ((t, tpath) :: rest).map Prod.fst := by
                    rw [List.map_cons]
                    intro hmem
                    rcases List.mem_cons.mp hmem with hmem | hmem
                    · exact hvt hmem
                    · exact hvrest hmem
                  exact hsub n (h4 v hvvis hvold n hedge)
              · exact absurd
                  (enq_vis_queue tpath (nbrs g t) visited rest v hv hvvis) hvq
            have h5' : target ∈ (enqueueAll tpath (nbrs g t) visited rest).1 →
                target ∈ (enqueueAll tpath (nbrs g t) visited rest).2.map Prod.fst := by
              intro htv
              by_cases hvis : target ∈ visited
              · have hq := h5 hvis
                rw [List.map_cons] at hq
                rcases List.mem_cons.mp hq with hmem | hmem
                · exact absurd hmem.symm ht
                · rcases List.mem_map.mp hmem with ⟨p, hp, rfl⟩
                  exact List.mem_map.mpr
                    ⟨p, enq_queue_keep tpath (nbrs g t) visited rest p hp, rfl⟩
              · exact enq_vis_queue tpath (nbrs g t) visited rest target htv hvis
            have hlen := enq_len tpath (nbrs g t) visited rest
            have hcard1 : visited.length ≤ U.card := nodup_length_le_card visited U h1 h2
            have hcard2 : (enqueueAll tpath (nbrs g t) visited rest).1.length ≤ U.card :=
              nodup_length_le_card _ U h1' h2'
            have hmono : visited.length ≤ (enqueueAll tpath (nbrs g t) visited rest).1.length := by
              rw [← List.toFinset_card_of_nodup h1, ← List.toFinset_card_of_nodup h1']
              exact Finset.card_le_card
                (fun x hx => List.mem_toFinset.mpr (hsub x (List.mem_toFinset.mp hx)))
            have hm' : (enqueueAll tpath (nbrs g t) visited rest).2.length
                + 2 * (U.card - (enqueueAll tpath (nbrs g t) visited rest).1.length) < fuel := by
              simp only [List.length_cons] at hm
              omega
            have hih := ih (enqueueAll tpath (nbrs g t) visited rest).1
              (enqueueAll tpath (nbrs g t) visited rest).2 h1' h2' h3' h4' h5' hm' h
            intro s hs x hrch
            exact hih s (hsub s hs) x hrch

end Core

namespace Core

theorem endpoints_length (edges : List FKEdge) :
    (edges.flatMap (fun e => [e.tableA, e.tableB])).length = 2 * edges.length := by
  induction edges with
  | nil => rfl
  | cons e es ih =>
      simp only [List.flatMap_cons, List.length_append, ih, List.length_cons,
        List.length_nil]
      omega

theorem bfs_none_not_reach (g : SchemaGraph) (start : List String) (target : String)
    (h : bfs g start target = none) : ¬ ReachFromSet g start target := by
  rintro ⟨s, hs, hr⟩
  have hq0 : ((start.dedup.map (fun s => (s, ([] : List FKEdge)))).map Prod.fst)
      = start.dedup := by
    rw [List.map_map]
    exact List.map_id'' (fun s => rfl) start.dedup
  have hUe : ∀ e ∈ g.edges,
      e.tableA ∈ (start.dedup ++ g.edges.flatMap (fun e => [e.tableA, e.tableB])).toFinset
      ∧ e.tableB ∈ (start.dedup ++ g.edges.flatMap (fun e => [e.tableA, e.tableB])).toFinset := by
    intro e he
    constructor
    · exact List.mem_toFinset.mpr (List.mem_append_right _
        (List.mem_flatMap.mpr ⟨e, he, by simp⟩))
    · exact List.mem_toFinset.mpr (List.mem_append_right _
        (List.mem_flatMap.mpr ⟨e, he, by simp⟩))
  have hcard : (start.dedup ++ g.edges.flatMap (fun e => [e.tableA, e.tableB])).toFinset.card
      ≤ start.dedup.length + 2 * g.edges.length := by
    have h1 := List.toFinset_card_le
      (start.dedup ++ g.edges.flatMap (fun e => [e.tableA, e.tableB]))
    rw [List.length_append, endpoints_length] at h1
    exact h1
  rw [bfs] at h
  have key := bfsAux_none_no_reach g target
    (start.dedup ++ g.edges.flatMap (fun e => [e.tableA, e.tableB])).toFinset hUe
    (3 * start.dedup.length + 4 * g.edges.length + 1)
    start.dedup (start.dedup.map (fun s => (s, [])))
    (List.nodup_dedup start)
    (fun x hx => List.mem_toFinset.mpr (List.mem_append_left _ hx))
    (by
      intro p hp
      rcases List.mem_map.mp hp with ⟨s', hs', rfl⟩
      exact hs')
    (by
      intro v hv hvq n he
      rw [hq0] at hvq
      exact absurd hv hvq)
    (by
      intro htv
      rw [hq0]
      exact htv)
    (by
      rw [List.length_map]
      omega)
    h
  exact key s (List.mem_dedup.mpr hs) target hr rfl

/-- Modelled from the spec: incremental join resolution (spec section
4.2).  Targets are taken in request order; each breadth-first search
restarts from the closure of the growing plan; a target with no path from
the growing plan fails with `UnreachableTable` naming that target. -/
def resolveAux (g : SchemaGraph) :
    List String → List String → List FKEdge → Except SqlError (List FKEdge)
  | [], _, plan => Except.ok plan
  | t :: ts, planTables, plan =>
      if memB t planTables then resolveAux g ts planTables plan
      else match bfs g planTables t with
        | none => Except.error (SqlError.UnreachableTable t)
        | some path =>
            resolveAux g ts
              (planTables ++ path.flatMap (fun e => [e.tableA, e.tableB]) ++ [t])
              (plan ++ path)

/-- Modelled from the spec: the JoinResolver entry point — an empty or
singleton table set yields an empty plan, larger sets are resolved
incrementally from the first requested table. -/
def resolveJoins (g : SchemaGraph) : List String → Except SqlError (List FKEdge)
  | [] => Except.ok []
  | t :: ts => resolveAux g ts [t] []

theorem resolveAux_ok_reach (g : SchemaGraph) (t0 : String) :
    ∀ (ts planTables : List String) (plan res : List FKEdge),
      (∀ p ∈ planTables, Reach g t0 p) →
      resolveAux g ts planTables plan = Except.ok res →
      ∀ x ∈ ts, Reach g t0 x := by
  intro ts
  induction ts with
  | nil =>
      intro planTables plan res _ _ x hx
      exact absurd hx (List.not_mem_nil x)
  | cons t ts ih =>
      intro planTables plan res hpt hok x hx
      rw [resolveAux] at hok
      by_cases hm : memB t planTables
      · rw [if_pos hm] at hok
        rcases List.mem_cons.mp hx with rfl | hx
        · exact hpt x ((memB_iff _ _).mp hm)
        · exact ih planTables plan res hpt hok x hx
      · rw [if_neg hm] at hok
        cases hb : bfs g planTables t with
        | none =>
            rw [hb] at hok
            exact Except.noConfusion hok
        | some path =>
            rw [hb] at hok
            have hsound := bfs_some_reach g planTables t path hb
            have hreach_t : Reach g t0 t := by
              rcases hsound.1 with ⟨s, hs, hr⟩
              exact Reach.trans (hpt s hs) hr
            have hpt' : ∀ p ∈ planTables
                ++ path.flatMap (fun e => [e.tableA, e.tableB]) ++ [t],
                Reach g t0 p := by
              intro p hp
              rcases List.mem_append.mp hp with hp | hp
              · rcases List.mem_append.mp hp with hp | hp
                · exact hpt p hp
                · rcases List.mem_flatMap.mp hp with ⟨e, he, hpe⟩
                  have hesound := hsound.2 e he
                  rcases List.mem_cons.mp hpe with rfl | hpe
                  · rcases hesound.2.1 with ⟨s, hs, hr⟩
                    exact Reach.trans (hpt s hs) hr
                  · rcases List.mem_singleton.mp hpe with rfl
                    rcases hesound.2.2 with ⟨s, hs, hr⟩
                    exact Reach.trans (hpt s hs) hr
              · rcases List.mem_singleton.mp hp with rfl
                exact hreach_t
            rcases List.mem_cons.mp hx with rfl | hx
            · exact hreach_t
            · exact ih _ _ res hpt' hok x hx

theorem resolveAux_err_unreachable (g : SchemaGraph) (t0 : String) :
    ∀ (ts planTables : List String) (plan : List FKEdge) (err : SqlError),
      t0 ∈ planTables →
      resolveAux g ts planTables plan = Except.error err →
      ∃ t', err = SqlError.UnreachableTable t' ∧ t' ∈ ts ∧ ¬ Reach g t0 t' := by
  intro ts
  induction ts with
  | nil =>
      intro planTables plan err _ herr
      exact Except.noConfusion herr
  | cons t ts ih =>
      intro planTables plan err ht0 herr
      rw [resolveAux] at herr
      by_cases hm : memB t planTables
      · rw [if_pos hm] at herr
        rcases ih planTables plan err ht0 herr with ⟨t', h1, h2, h3⟩
        exact ⟨t', h1, List.mem_cons_of_mem _ h2, h3⟩
      · rw [if_neg hm] at herr
        cases hb : bfs g planTables t with
        | none =>
            rw [hb] at herr
            injection herr with herr
            refine ⟨t, herr.symm, List.mem_cons_self _ _, ?_⟩
            intro hr
            exact bfs_none_not_reach g planTables t hb ⟨t0, ht0, hr⟩
        | some path =>
            rw [hb] at herr
            rcases ih _ _ err
              (List.mem_append_left _ (List.mem_append_left _ ht0)) herr
              with ⟨t', h1, h2, h3⟩
            exact ⟨t', h1, List.mem_cons_of_mem _ h2, h3⟩

end Core

/-- C4 counterexample: in the graph with tables A, X, Y and the single
edge X–Y, requesting [A, X, Y] gives A no path to the rest of the set;
resolution does fail, but the `UnreachableTable` error names X — the first
target unreachable from the growing plan started at A — not A itself, so
"names that table" does not hold as stated. -/
theorem c4_counterexample :
    Core.resolveJoins (Core.SchemaGraph.mk ["A", "X", "Y"]
        [Core.FKEdge.mk "X" "x1" "Y" "y1"]) ["A", "X", "Y"]
      = Except.error (Core.SqlError.UnreachableTable "X")
    ∧ Core.SqlError.UnreachableTable "X" ≠ Core.SqlError.UnreachableTable "A"
    ∧ ¬ Core.Reach (Core.SchemaGraph.mk ["A", "X", "Y"]
        [Core.FKEdge.mk "X" "x1" "Y" "y1"]) "X" "A"
    ∧ ¬ Core.Reach (Core.SchemaGraph.mk ["A", "X", "Y"]
        [Core.FKEdge.mk "X" "x1" "Y" "y1"]) "Y" "A" := by
  refine ⟨rfl, by decide, ?_, ?_⟩
  · intro hr
    exact Core.bfs_none_not_reach (Core.SchemaGraph.mk ["A", "X", "Y"]
      [Core.FKEdge.mk "X" "x1" "Y" "y1"]) ["X"] "A" (by decide)
      ⟨"X", by decide, hr⟩
  · intro hr
    exact Core.bfs_none_not_reach (Core.SchemaGraph.mk ["A", "X", "Y"]
      [Core.FKEdge.mk "X" "x1" "Y" "y1"]) ["Y"] "A" (by decide)
      ⟨"Y", by decide, hr⟩

/-- C4 (amended): for every request whose table set contains a table with
no path to the rest of the requested set, join resolution fails with an
`UnreachableTable` error naming a requested table that is unreachable from
the first requested table (the first target with no path from the growing
plan — when the disconnected table is the one processed while the plan
covers the rest, it is named itself); resolution never returns a plan that
silently drops the table. -/
theorem c4_unreachable_table_error (g : Core.SchemaGraph) (t0 : String)
    (ts : List String) (t : String)
    (hmem : t ∈ t0 :: ts)
    (hrest : ∃ u ∈ t0 :: ts, u ≠ t)
    (hno : ∀ u ∈ t0 :: ts, u ≠ t → ¬ Core.Reach g u t) :
    ∃ t', Core.resolveJoins g (t0 :: ts)
        = Except.error (Core.SqlError.UnreachableTable t')
      ∧ t' ∈ ts ∧ ¬ Core.Reach g t0 t' := by
  have hres : Core.resolveJoins g (t0 :: ts) = Core.resolveAux g ts [t0] [] := rfl
  cases hr : Core.resolveAux g ts [t0] [] with
  | ok res =>
      exfalso
      have hall := Core.resolveAux_ok_reach g t0 ts [t0] [] res
        (by
          intro p hp
          rcases List.mem_singleton.mp hp with rfl
          exact Core.Reach.refl _) hr
      by_cases ht0 : t = t0
      · subst ht0
        rcases hrest with ⟨u, hu, hut⟩
        rcases List.mem_cons.mp hu with rfl | hu
        · exact hut rfl
        · exact hno u (List.mem_cons_of_mem _ hu) hut (Core.reach_symm (hall u hu))
      · rcases List.mem_cons.mp hmem with rfl | hmem'
        · exact ht0 rfl
        · exact hno t0 (List.mem_cons_self _ _) (fun h => ht0 h.symm) (hall t hmem')
  | error err =>
      rcases Core.resolveAux_err_unreachable g t0 ts [t0] [] err
        (List.mem_singleton_self t0) hr with ⟨t', h1, h2, h3⟩
      subst h1
      exact ⟨t', hres.trans hr, h2, h3⟩

/-- Witness for C4 (amended): requesting [X, Y, A] with the single edge
X–Y makes A — processed last — the table with no path to the rest, and
resolution fails naming a table unreachable from X. -/
theorem c4_unreachable_table_error_witness :
    ∃ t', Core.resolveJoins (Core.SchemaGraph.mk ["A", "X", "Y"]
        [Core.FKEdge.mk "X" "x1" "Y" "y1"]) ["X", "Y", "A"]
        = Except.error (Core.SqlError.UnreachableTable t')
      ∧ t' ∈ ["Y", "A"]
      ∧ ¬ Core.Reach (Core.SchemaGraph.mk ["A", "X", "Y"]
          [Core.FKEdge.mk "X" "x1" "Y" "y1"]) "X" t' := by
  refine c4_unreachable_table_error (Core.SchemaGraph.mk ["A", "X", "Y"]
    [Core.FKEdge.mk "X" "x1" "Y" "y1"]) "X" ["Y", "A"] "A" (by decide)
    ⟨"X", by decide, by decide⟩ ?_
  intro u hu hne hr
  have hu3 : u = "X" ∨ u = "Y" ∨ u = "A" := by
    rcases List.mem_cons.mp hu with h | hu
    · exact Or.inl h
    rcases List.mem_cons.mp hu with h | hu
    · exact Or.inr (Or.inl h)
    rcases List.mem_singleton.mp hu with h
    exact Or.inr (Or.inr h)
  rcases hu3 with rfl | rfl | rfl
  · exact Core.bfs_none_not_reach (Core.SchemaGraph.mk ["A", "X", "Y"]
      [Core.FKEdge.mk "X" "x1" "Y" "y1"]) ["X"] "A" (by decide) ⟨"X", by decide, hr⟩
  · exact Core.bfs_none_not_reach (Core.SchemaGraph.mk ["A", "X", "Y"]
      [Core.FKEdge.mk "X" "x1" "Y" "y1"]) ["Y"] "A" (by decide) ⟨"Y", by decide, hr⟩
  · exact hne rfl

namespace Core

/-- Modelled from the spec: aggregate functions (spec section 4.4). -/
inductive Agg where
  | sum
  | avg
  | amin
  | amax
  | count
deriving DecidableEq, Repr

/-- SQL spelling of an aggregate function. -/
def aggSql : Agg → String
  | Agg.sum => "SUM"
  | Agg.avg => "AVG"
  | Agg.amin => "MIN"
  | Agg.amax => "MAX"
  | Agg.count => "COUNT"

/-- Modelled from the spec: sort direction of an ORDER BY column. -/
inductive SortOrder where
  | asc
  | desc
deriving DecidableEq, Repr

/-- Whether MIN/MAX applies to a declared type (numeric, text or
timestamp — not boolean). -/
def minMaxAllowed : ColumnType → Bool
  | ColumnType.boolean => false
  | _ => true

/-- Modelled from the spec: which aggregate applies to which declared
type — COUNT universally, SUM/AVG on numeric types, MIN/MAX on numeric,
text and timestamp (spec section 4.4). -/
def aggAllowed (a : Agg) (ty : ColumnType) : Bool :=
  match a with
  | Agg.count => true
  | Agg.sum => isNumericType ty
  | Agg.avg => isNumericType ty
  | Agg.amin => minMaxAllowed ty
  | Agg.amax => minMaxAllowed ty

/-- Modelled from the spec: one requested column — source table and
column, declared type, optional alias, optional constraint, groupBy flag,
optional aggregate, optional sort direction (spec sections 3 and 6). -/
structure ColumnSpec where
  table : String
  column : String
  colType : ColumnType
  aliasName : Option String
  constr : Option (Op × String)
  groupBy : Bool
  aggregate : Option Agg
  sortDir : Option SortOrder
deriving DecidableEq, Repr

/-- Modelled from the spec: a query request — the selected tables, the
per-column specifications, and optional limit/offset. -/
structure QueryRequest where
  tables : List String
  columns : List ColumnSpec
  limit : Option Nat
  offset : Option Nat
deriving DecidableEq, Repr

/-- Validation of aggregation composition: every aggregate must apply to
its column's type, and when any column is aggregated every non-aggregated
column must be a GROUP BY column. -/
def aggregationOk (cols : List ColumnSpec) : Bool :=
  (cols.all (fun c =>
    match c.aggregate with
    | some a => aggAllowed a c.colType
    | none => true))
  && (!(cols.any (fun c => c.aggregate.isSome))
      || cols.all (fun c => c.aggregate.isSome || c.groupBy))

/-- SELECT-list rendering of one requested column: wrapped in its
aggregate when present, aliased when an alias was supplied. -/
def selectItem (c : ColumnSpec) : String :=
  let base := colRef c.table c.column
  let expr := match c.aggregate with
    | some a => aggSql a ++ "(" ++ base ++ ")"
    | none => base
  match c.aliasName with
  | some al => expr ++ " AS " ++ al
  | none => expr

/-- Rendering of one resolved join edge as an INNER JOIN clause. -/
def joinClause (e : FKEdge) : String :=
  " INNER JOIN " ++ e.tableB ++ " ON "
    ++ e.tableA ++ "." ++ e.colA ++ " = " ++ e.tableB ++ "." ++ e.colB

/-- Formatting of every constrained column, in request order, failing on
the first invalid constraint. -/
def formatAll : List ColumnSpec → Except SqlError (List FormattedConstraint)
  | [] => Except.ok []
  | c :: cs =>
      match c.constr with
      | none => formatAll cs
      | some (op, raw) =>
          match formatConstraint c.table c.column c.colType op raw with
          | Except.error e => Except.error e
          | Except.ok f =>
              match formatAll cs with
              | Except.error e => Except.error e
              | Except.ok fs => Except.ok (f :: fs)

/-- Modelled from the spec: the QueryBuilder read path (spec section 4.4):
SELECT list, FROM the first resolved table, INNER JOIN clauses from the
join plan, WHERE conjunction of the formatted constraints, GROUP BY the
flagged columns in request order, ORDER BY the explicitly sorted columns
in request order, LIMIT/OFFSET when provided.  All stages are pure, so the
statement is a function of the request and the schema snapshot. -/
def buildQuery (g : SchemaGraph) (req : QueryRequest) : Except SqlError BuiltStatement :=
  match req.tables with
  | [] => Except.error SqlError.EmptyRequest
  | t0 :: ts =>
      match resolveJoins g (t0 :: ts) with
      | Except.error e => Except.error e
      | Except.ok plan =>
          match formatAll req.columns with
          | Except.error e => Except.error e
          | Except.ok fcs =>
              if aggregationOk req.columns then
                let selectList := String.intercalate ", " (req.columns.map selectItem)
                let joins := String.join (plan.map joinClause)
                let whereClause := if fcs.isEmpty then ""
                  else " WHERE " ++ String.intercalate " AND "
                    (fcs.map (fun f => f.fragment))
                let groupCols := req.columns.filter (fun c => c.groupBy)
                let groupClause := if groupCols.isEmpty then ""
                  else " GROUP BY " ++ String.intercalate ", "
                    (groupCols.map (fun c => colRef c.table c.column))
                let orderItems := req.columns.filterMap (fun c =>
                  c.sortDir.map (fun d => colRef c.table c.column ++
                    (match d with
                     | SortOrder.asc => " ASC"
                     | SortOrder.desc => " DESC")))
                let orderClause := if orderItems.isEmpty then ""
                  else " ORDER BY " ++ String.intercalate ", " orderItems
                let limitClause := match req.limit with
                  | some n => " LIMIT " ++ toString n
                  | none => ""
                let offsetClause := match req.offset with
                  | some n => " OFFSET " ++ toString n
                  | none => ""
                Except.ok
                  { sql := "SELECT " ++ selectList ++ " FROM " ++ t0 ++ joins
                      ++ whereClause ++ groupClause ++ orderClause
                      ++ limitClause ++ offsetClause,
                    params := fcs.map (fun f => f.param) }
              else Except.error SqlError.InvalidAggregation

end Core

/-- C1: statement generation — join resolution with its fixed
edge-discovery-order tie-breaking included — is a pure function of the
request and the schema snapshot, so two identical requests evaluated
against the same snapshot yield byte-identical SQL text and identical
parameter lists. -/
theorem c1_sql_generation_deterministic (g₁ g₂ : Core.SchemaGraph)
    (r₁ r₂ : Core.QueryRequest) (s₁ s₂ : Core.BuiltStatement)
    (hg : g₁ = g₂) (hr : r₁ = r₂)
    (h₁ : Core.buildQuery g₁ r₁ = Except.ok s₁)
    (h₂ : Core.buildQuery g₂ r₂ = Except.ok s₂) :
    s₁.sql = s₂.sql ∧ s₁ = s₂ := by
  subst hg
  subst hr
  rw [h₁] at h₂
  injection h₂ with h
  exact ⟨by rw [h], h⟩

/-- Concrete schema snapshot for the C1 witness. -/
def c1gW : Core.SchemaGraph :=
  Core.SchemaGraph.mk ["users", "orders"] [Core.FKEdge.mk "users" "id" "orders" "user_id"]

/-- Concrete query request for the C1 witness. -/
def c1reqW : Core.QueryRequest :=
  { tables := ["users", "orders"],
    columns := [
      { table := "users", column := "name", colType := Core.ColumnType.text,
        aliasName := some "customer", constr := some (Core.Op.eq, "bob"),
        groupBy := false, aggregate := none, sortDir := some Core.SortOrder.asc },
      { table := "orders", column := "total", colType := Core.ColumnType.integer,
        aliasName := none, constr := some (Core.Op.gt, "10"),
        groupBy := false, aggregate := none, sortDir := none }],
    limit := some 10, offset := none }

/-- The statement the C1 witness request builds. -/
def c1stmtW : Core.BuiltStatement :=
  { sql := "SELECT users.name AS customer, orders.total FROM users INNER JOIN orders ON users.id = orders.user_id WHERE users.name = ? AND orders.total > ? ORDER BY users.name ASC LIMIT 10",
    params := [Core.SqlValue.text "bob", Core.SqlValue.num 10] }

/-- Witness for C1: the pipeline evaluates on a concrete snapshot and
request to a concrete statement, and two identical evaluations agree. -/
theorem c1_sql_generation_deterministic_witness :
    Core.buildQuery c1gW c1reqW = Except.ok c1stmtW
    ∧ (c1stmtW.sql = c1stmtW.sql ∧ c1stmtW = c1stmtW) :=
  ⟨rfl, c1_sql_generation_deterministic c1gW c1gW c1reqW c1reqW c1stmtW c1stmtW
    rfl rfl rfl rfl⟩
